import Mathlib

/-!
Shallow embedding of `src/MaxHeap.cpp` (template class `MinHeap<T>`,
instantiated at `T = int` as in the driver `src/BinaryHeap.cpp`).

Modelling conventions:
* `size_t` arithmetic is `Nat` taken modulo `szMod = 2^64` wherever the
  source can over/underflow (`index - 1`, `_size - 1`, `_capacity * 2`, ...).
* The backing array `_cache` is a `List (Option Int)` of length equal to the
  allocated cell count; `none` marks an uninitialized (indeterminate) cell.
* Every operation that performs an array access returns `Option MinHeap`;
  an out-of-bounds access or a read of an indeterminate cell — undefined
  behavior in the C++ — yields `none`.
* `CacheResize` in the source frees the old buffer and then copies out of the
  freed memory; the embedding models that use-after-free charitably, copying
  the values the old buffer held, which only strengthens any negative result
  proved about it.
-/

namespace MH

/-- Modulus of C++ `size_t` (64-bit unsigned) arithmetic. -/
def szMod : Nat := 18446744073709551616

/-- The heap object of `MaxHeap.cpp`: fields `_cache`, `_size`, `_capacity`.
`cache` lists the allocated cells (`none` = indeterminate content). -/
structure MinHeap where
  cache : List (Option Int)
  size : Nat
  capacity : Nat
  deriving DecidableEq, Repr

/-- Read `_cache[i]`: `none` on out-of-bounds or indeterminate cell. -/
def read (h : MinHeap) (i : Nat) : Option Int :=
  if i < h.cache.length then (h.cache.get? i).join else none

/-- Write a cell of `_cache` (the written value may itself be indeterminate,
as in the resize copy loop); `none` on out-of-bounds. -/
def write (h : MinHeap) (i : Nat) (x : Option Int) : Option MinHeap :=
  if i < h.cache.length then some { h with cache := h.cache.set i x } else none

/-- `std::swap(_cache[i], _cache[j])`: reads both cells, writes both. -/
def swapCells (h : MinHeap) (i j : Nat) : Option MinHeap :=
  match read h i, read h j with
  | some vi, some vj => (write h i (some vj)).bind fun h2 => write h2 j (some vi)
  | _, _ => none

/-- `GetParentNode(index)` = `(index - 1) / 2` in `size_t` arithmetic
(lines 212-217); for `index = 0` the subtraction wraps to `2^64 - 1`. -/
def GetParentNode (index : Nat) : Nat :=
  ((index + (szMod - 1)) % szMod) / 2

/-- `GetLeftChildNode(index)` = `2 * index + 1` in `size_t` arithmetic. -/
def GetLeftChildNode (index : Nat) : Nat :=
  (2 * index + 1) % szMod

/-- `GetRightChildNode(index)` = `2 * index + 2` in `size_t` arithmetic. -/
def GetRightChildNode (index : Nat) : Nat :=
  (2 * index + 2) % szMod

/-- `PercolateUp` (lines 43-58), fuel-indexed.  The body is exactly the
source: `parent = GetParentNode(index)`, and a swap + recursion at `parent`
only when `parent > 0 && _cache[parent] < _cache[index]` (short-circuit:
for `parent = 0` no cell is read).  The recursion parameter chain satisfies
`GetParentNode index < 2^63` after one step and then strictly halves, so any
execution makes at most 66 nested calls; `PercolateUp` below supplies fuel
128, which therefore can never be exhausted. -/
def PercolateUpF (h : MinHeap) (index : Nat) : Nat → Option MinHeap
  | 0 => none
  | fuel + 1 =>
    let parent := GetParentNode index
    if 0 < parent then
      match read h parent, read h index with
      | some pv, some iv =>
        if pv < iv then
          (swapCells h parent index).bind fun h2 => PercolateUpF h2 parent fuel
        else some h
      | _, _ => none
    else some h

/-- `PercolateUp(index)` with its (never exhausted) fuel bound. -/
def PercolateUp (h : MinHeap) (index : Nat) : Option MinHeap :=
  PercolateUpF h index 128

/-- `PercolateDown` (lines 62-109), fuel-indexed.  Faithful to the source:
* leaf test `GetLeftChildNode(index) < _size && GetRightChildNode(index) < _size`;
* `parent = GetParentNode(index + 2)`, i.e. `(index + 1) / 2`;
* children `left_child`/`right_child` of that `parent`;
* the two-children test is the value sentinel `_cache[left_child] > -1 &&
  _cache[right_child] > -1` with C++ short-circuit evaluation (the right
  child's cell is not read when the left one fails the test);
* in the two-children branch, `max_value` is converted to `unsigned int`
  before the equality test, modelled by `Int.emod _ 4294967296`;
* in the one-child branch `child_select = _cache[left_child] != -1 ?
  left_child : right_child`.
In every in-bounds execution the recursion index strictly increases while
staying below `_size`, so the `h.size + 1` fuel supplied by `PercolateDown`
suffices; exhaustion (reachable only in degenerate states, where the C++
can loop forever) yields `none`. -/
def PercolateDownF (h : MinHeap) (index : Nat) : Nat → Option MinHeap
  | 0 => none
  | fuel + 1 =>
    if GetLeftChildNode index < h.size ∧ GetRightChildNode index < h.size then
      let parent := GetParentNode ((index + 2) % szMod)
      let lc := GetLeftChildNode parent
      let rc := GetRightChildNode parent
      match read h lc with
      | none => none
      | some lv =>
        if lv > -1 then
          match read h rc with
          | none => none
          | some rv =>
            if rv > -1 then
              let mi := if (max lv rv).emod 4294967296 = lv.emod 4294967296
                        then lc else rc
              (swapCells h parent mi).bind fun h2 => PercolateDownF h2 mi fuel
            else
              (swapCells h parent lc).bind fun h2 => PercolateDownF h2 lc fuel
        else
          let cs := if lv ≠ -1 then lc else rc
          (swapCells h parent cs).bind fun h2 => PercolateDownF h2 cs fuel
    else some h

/-- `PercolateDown(index)` with its fuel bound. -/
def PercolateDown (h : MinHeap) (index : Nat) : Option MinHeap :=
  PercolateDownF h index (h.size + 1)

/-- `CacheResize(new_capacity)` (lines 113-131): frees the old buffer,
allocates `new T[new_capacity]` (indeterminate cells), then copies
`temp[i]` for `i = 1 .. _capacity - 1` — index 0 is never copied — and
finally sets `_capacity = new_capacity`.  The read of the freed buffer is
modelled charitably as reading the values it held. -/
def CacheResize (h : MinHeap) (new_capacity : Nat) : Option MinHeap :=
  let temp := h.cache
  let fresh : List (Option Int) := List.replicate new_capacity none
  let copied : Option (List (Option Int)) :=
    (List.range' 1 (h.capacity - 1)).foldlM
      (fun dst i =>
        match temp.get? i with
        | some cell => if i < dst.length then some (dst.set i cell) else none
        | none => none)
      fresh
  copied.map fun c => { cache := c, size := h.size, capacity := new_capacity }

/-- `Print(out)` (lines 134-143): emits `_cache[i]` for `i = 0 .. _size - 1`.
We model the sequence of cell reads it performs. -/
def Print (h : MinHeap) : List (Option Int) :=
  (List.range h.size).map (read h)

/-- The constructor `MinHeap(capacity)` (lines 150-157): allocates
`new T[capacity + 1]` (indeterminate cells), `_size = 0`,
`_capacity = capacity`.  No validation of the argument is performed. -/
def newMinHeap (capacity : Nat) : MinHeap :=
  { cache := List.replicate ((capacity % szMod + 1) % szMod) none
    size := 0
    capacity := capacity % szMod }

/-- `Insert(x)` (lines 160-185): `_size++`; resize to `_capacity * 2` when
`_size == _capacity`; `_cache[_size - 1] = x`; `PercolateUp(_size - 1)`. -/
def Insert (h : MinHeap) (x : Int) : Option MinHeap :=
  let h1 : MinHeap := { h with size := (h.size + 1) % szMod }
  let grown : Option MinHeap :=
    if h1.size = h1.capacity then CacheResize h1 ((h1.capacity * 2) % szMod)
    else some h1
  grown.bind fun h2 =>
    let idx := (h2.size + (szMod - 1)) % szMod
    (write h2 idx (some x)).bind fun h3 => PercolateUp h3 idx

/-- `Delete()` (lines 190-209): swap `_cache[0]` with `_cache[_size - 1]`,
`_size--`, `PercolateDown(0)`.  No emptiness check; returns no value. -/
def Delete (h : MinHeap) : Option MinHeap :=
  let last := (h.size + (szMod - 1)) % szMod
  (swapCells h 0 last).bind fun h2 =>
    let h3 : MinHeap := { h2 with size := (h2.size + (szMod - 1)) % szMod }
    PercolateDown h3 0

/-- The multiset of logically valid elements: cells `0 .. _size - 1`. -/
def liveList (h : MinHeap) : List (Option Int) :=
  h.cache.take h.size

/-- `liveList` as a multiset. -/
def liveMS (h : MinHeap) : Multiset (Option Int) :=
  (liveList h : Multiset (Option Int))

/-- The spec's heap-order invariant, decidably: for every `i` with
`0 < i < size`, the element at `GetParentNode i` compares no worse than the
element at `i` (max-heap: parent ≥ child).  Pairs whose cells cannot be
read are skipped. -/
def heapOrderedB (h : MinHeap) : Bool :=
  (List.range h.size).all fun i =>
    if i = 0 then true
    else
      match read h (GetParentNode i), read h i with
      | some pv, some cv => decide (cv ≤ pv)
      | _, _ => true

/-! ### Inversion lemmas for the primitive cell operations -/

theorem read_some {h : MinHeap} {i : Nat} {v : Int} (hr : read h i = some v) :
    i < h.cache.length ∧ h.cache.get? i = some (some v) := by
  unfold read at hr
  split at hr
  · rename_i hlt
    refine ⟨hlt, ?_⟩
    cases hg : h.cache.get? i with
    | none => rw [hg] at hr; simp [Option.join] at hr
    | some c =>
      rw [hg] at hr
      cases c with
      | none => simp [Option.join] at hr
      | some w => simp [Option.join] at hr; simp [hr]
  · exact absurd hr (by simp)

theorem read_of_get? {h : MinHeap} {i : Nat} {v : Int}
    (hlt : i < h.cache.length) (hg : h.cache.get? i = some (some v)) :
    read h i = some v := by
  unfold read
  rw [if_pos hlt, hg]
  rfl

theorem write_some {h h2 : MinHeap} {i : Nat} {x : Option Int}
    (hw : write h i x = some h2) :
    i < h.cache.length ∧ h2 = { h with cache := h.cache.set i x } := by
  unfold write at hw
  split at hw
  · rename_i hlt
    exact ⟨hlt, by injection hw with e; exact e.symm⟩
  · exact absurd hw (by simp)

theorem swap_some {h h2 : MinHeap} {i j : Nat}
    (hs : swapCells h i j = some h2) :
    ∃ vi vj, read h i = some vi ∧ read h j = some vj ∧
      h2.cache = (h.cache.set i (some vj)).set j (some vi) ∧
      h2.size = h.size ∧ h2.capacity = h.capacity ∧
      h2.cache.length = h.cache.length := by
  unfold swapCells at hs
  cases hri : read h i with
  | none => rw [hri] at hs; exact absurd hs (by simp)
  | some vi =>
    cases hrj : read h j with
    | none => rw [hri, hrj] at hs; exact absurd hs (by simp)
    | some vj =>
      rw [hri, hrj] at hs
      simp only [Option.bind_eq_some] at hs
      obtain ⟨hm, hw1, hw2⟩ := hs
      obtain ⟨hl1, he1⟩ := write_some hw1
      obtain ⟨hl2, he2⟩ := write_some hw2
      subst he1
      subst he2
      exact ⟨vi, vj, rfl, rfl, rfl, rfl, rfl, by simp⟩

theorem swap_read_ne {h h2 : MinHeap} {i j k : Nat}
    (hs : swapCells h i j = some h2) (hki : k ≠ i) (hkj : k ≠ j) :
    read h2 k = read h k := by
  obtain ⟨vi, vj, _, _, hc, _, _, hlen⟩ := swap_some hs
  unfold read
  rw [hlen, hc]
  rw [List.get?_set_ne _ _ (fun e => hkj e.symm),
    List.get?_set_ne _ _ (fun e => hki e.symm)]

/-! ### List permutation facts about in-place swaps -/

theorem cons_set_perm {α : Type} :
    ∀ (t : List α) (k : Nat) (a b : α), t.get? k = some b →
      List.Perm (b :: t.set k a) (a :: t)
  | [], k, _, _, hg => by simp at hg
  | c :: t, 0, a, b, hg => by
    have e : c = b := by simpa using hg
    show List.Perm (b :: a :: t) (a :: c :: t)
    rw [e]
    exact List.Perm.swap a b t
  | c :: t, k + 1, a, b, hg => by
    have hg' : t.get? k = some b := by simpa using hg
    have ih := cons_set_perm t k a b hg'
    show List.Perm (b :: c :: t.set k a) (a :: c :: t)
    exact ((List.Perm.swap c b _).trans (ih.cons c)).trans (List.Perm.swap a c t)

theorem set_set_perm {α : Type} :
    ∀ (l : List α) (i j : Nat) (a b : α),
      l.get? i = some a → l.get? j = some b →
      List.Perm ((l.set i b).set j a) l
  | [], i, _, _, _, hg, _ => by simp at hg
  | c :: t, 0, 0, a, b, hga, hgb => by
    have e : c = a := by simpa using hga
    show List.Perm (a :: t) (c :: t)
    rw [e]
  | c :: t, 0, j + 1, a, b, hga, hgb => by
    have e : c = a := by simpa using hga
    have hgb' : t.get? j = some b := by simpa using hgb
    show List.Perm (b :: t.set j a) (c :: t)
    rw [e]
    exact cons_set_perm t j a b hgb'
  | c :: t, i + 1, 0, a, b, hga, hgb => by
    have e : c = b := by simpa using hgb
    have hga' : t.get? i = some a := by simpa using hga
    show List.Perm (a :: t.set i b) (c :: t)
    rw [e]
    exact cons_set_perm t i b a hga'
  | c :: t, i + 1, j + 1, a, b, hga, hgb => by
    have hga' : t.get? i = some a := by simpa using hga
    have hgb' : t.get? j = some b := by simpa using hgb
    show List.Perm (c :: (t.set i b).set j a) (c :: t)
    exact (set_set_perm t i j a b hga' hgb').cons c

/-- A swap of two cells inside the live prefix leaves `liveMS` unchanged. -/
theorem swap_liveMS {h h2 : MinHeap} {i j : Nat}
    (hi : i < h.size) (hj : j < h.size)
    (hs : swapCells h i j = some h2) :
    liveMS h2 = liveMS h := by
  obtain ⟨vi, vj, hri, hrj, hc, hsz, _, _⟩ := swap_some hs
  obtain ⟨_, hgi⟩ := read_some hri
  obtain ⟨_, hgj⟩ := read_some hrj
  unfold liveMS liveList
  rw [hsz, hc, List.set_take, List.set_take]
  have hgi' : (h.cache.take h.size).get? i = some (some vi) := by
    rw [List.get?_take hi]; exact hgi
  have hgj' : (h.cache.take h.size).get? j = some (some vj) := by
    rw [List.get?_take hj]; exact hgj
  exact Multiset.coe_eq_coe.mpr
    (set_set_perm (h.cache.take h.size) i j (some vi) (some vj) hgi' hgj')

/-! ### Structural lemmas about `PercolateUp` -/

theorem puF_meta : ∀ (fuel : Nat) (h : MinHeap) (idx : Nat) (h' : MinHeap),
    PercolateUpF h idx fuel = some h' →
    h'.size = h.size ∧ h'.capacity = h.capacity ∧
      h'.cache.length = h.cache.length
  | 0, h, idx, h', hp => by simp [PercolateUpF] at hp
  | fuel + 1, h, idx, h', hp => by
    simp only [PercolateUpF] at hp
    split at hp
    · cases hrp : read h (GetParentNode idx) with
      | none => rw [hrp] at hp; exact absurd hp (by simp)
      | some pv =>
        cases hri : read h idx with
        | none => rw [hrp, hri] at hp; exact absurd hp (by simp)
        | some iv =>
          rw [hrp, hri] at hp
          simp only at hp
          split at hp
          · simp only [Option.bind_eq_some] at hp
            obtain ⟨h2, hsw, hrec⟩ := hp
            obtain ⟨_, _, _, _, _, hsz, hcap, hlen⟩ := swap_some hsw
            obtain ⟨e1, e2, e3⟩ := puF_meta fuel h2 (GetParentNode idx) h' hrec
            exact ⟨e1.trans hsz, e2.trans hcap, e3.trans hlen⟩
          · injection hp with e; subst e; exact ⟨rfl, rfl, rfl⟩
    · injection hp with e; subst e; exact ⟨rfl, rfl, rfl⟩

/-- `PercolateUpF` from an index `≥ 1` never touches cell 0: the guard is
`parent > 0`, so every swap happens at two nonzero indices. -/
theorem puF_root : ∀ (fuel : Nat) (h : MinHeap) (idx : Nat) (h' : MinHeap),
    1 ≤ idx → PercolateUpF h idx fuel = some h' →
    read h' 0 = read h 0
  | 0, h, idx, h', _, hp => by simp [PercolateUpF] at hp
  | fuel + 1, h, idx, h', hidx, hp => by
    simp only [PercolateUpF] at hp
    split at hp
    · rename_i hpar
      cases hrp : read h (GetParentNode idx) with
      | none => rw [hrp] at hp; exact absurd hp (by simp)
      | some pv =>
        cases hri : read h idx with
        | none => rw [hrp, hri] at hp; exact absurd hp (by simp)
        | some iv =>
          rw [hrp, hri] at hp
          simp only at hp
          split at hp
          · simp only [Option.bind_eq_some] at hp
            obtain ⟨h2, hsw, hrec⟩ := hp
            have e2 : read h2 0 = read h 0 :=
              swap_read_ne hsw (Nat.ne_of_lt hpar) (by omega)
            have e1 := puF_root fuel h2 (GetParentNode idx) h' hpar hrec
            exact e1.trans e2
          · injection hp with e; subst e; rfl
    · injection hp with e; subst e; rfl

/-! ### Structural lemmas about `PercolateDown` -/

theorem pdF_meta : ∀ (fuel : Nat) (h : MinHeap) (idx : Nat) (h' : MinHeap),
    PercolateDownF h idx fuel = some h' →
    h'.size = h.size ∧ h'.capacity = h.capacity ∧
      h'.cache.length = h.cache.length
  | 0, h, idx, h', hp => by simp [PercolateDownF] at hp
  | fuel + 1, h, idx, h', hp => by
    simp only [PercolateDownF] at hp
    split at hp
    · cases hlv : read h (GetLeftChildNode (GetParentNode ((idx + 2) % szMod))) with
      | none => rw [hlv] at hp; exact absurd hp (by simp)
      | some lv =>
        rw [hlv] at hp
        simp only at hp
        split at hp
        · cases hrv : read h (GetRightChildNode (GetParentNode ((idx + 2) % szMod))) with
          | none => rw [hrv] at hp; exact absurd hp (by simp)
          | some rv =>
            rw [hrv] at hp
            simp only at hp
            split at hp
            · simp only [Option.bind_eq_some] at hp
              obtain ⟨h2, hsw, hrec⟩ := hp
              obtain ⟨_, _, _, _, _, hsz, hcap, hlen⟩ := swap_some hsw
              obtain ⟨e1, e2, e3⟩ := pdF_meta fuel h2 _ h' hrec
              exact ⟨e1.trans hsz, e2.trans hcap, e3.trans hlen⟩
            · simp only [Option.bind_eq_some] at hp
              obtain ⟨h2, hsw, hrec⟩ := hp
              obtain ⟨_, _, _, _, _, hsz, hcap, hlen⟩ := swap_some hsw
              obtain ⟨e1, e2, e3⟩ := pdF_meta fuel h2 _ h' hrec
              exact ⟨e1.trans hsz, e2.trans hcap, e3.trans hlen⟩
        · simp only [Option.bind_eq_some] at hp
          obtain ⟨h2, hsw, hrec⟩ := hp
          obtain ⟨_, _, _, _, _, hsz, hcap, hlen⟩ := swap_some hsw
          obtain ⟨e1, e2, e3⟩ := pdF_meta fuel h2 _ h' hrec
          exact ⟨e1.trans hsz, e2.trans hcap, e3.trans hlen⟩
    · injection hp with e; subst e; exact ⟨rfl, rfl, rfl⟩

/-- In states with `size < 2^63` (every state reachable through the public
interface), `PercolateDownF` from an index below `2^63` only ever swaps two
cells of the live prefix, so it preserves the live multiset. -/
theorem pdF_liveMS : ∀ (fuel : Nat) (h : MinHeap) (idx : Nat) (h' : MinHeap),
    idx < 9223372036854775808 → h.size < 9223372036854775808 →
    PercolateDownF h idx fuel = some h' →
    liveMS h' = liveMS h
  | 0, h, idx, h', _, _, hp => by simp [PercolateDownF] at hp
  | fuel + 1, h, idx, h', hidx, hsz, hp => by
    simp only [PercolateDownF] at hp
    split at hp
    · rename_i hg
      have hg1 : 2 * idx + 1 < h.size := by
        have := hg.1
        unfold GetLeftChildNode szMod at this
        omega
      have hg2 : 2 * idx + 2 < h.size := by
        have := hg.2
        unfold GetRightChildNode szMod at this
        omega
      have hpe : GetParentNode ((idx + 2) % szMod) = (idx + 1) / 2 := by
        unfold GetParentNode szMod
        omega
      have hlce : GetLeftChildNode ((idx + 1) / 2) = 2 * ((idx + 1) / 2) + 1 := by
        unfold GetLeftChildNode szMod
        omega
      have hrce : GetRightChildNode ((idx + 1) / 2) = 2 * ((idx + 1) / 2) + 2 := by
        unfold GetRightChildNode szMod
        omega
      rw [hpe, hlce, hrce] at hp
      have hplt : (idx + 1) / 2 < h.size := by omega
      have hlclt : 2 * ((idx + 1) / 2) + 1 < h.size := by omega
      have hrclt : 2 * ((idx + 1) / 2) + 2 < h.size := by omega
      cases hlv : read h (2 * ((idx + 1) / 2) + 1) with
      | none => rw [hlv] at hp; exact absurd hp (by simp)
      | some lv =>
        rw [hlv] at hp
        simp only at hp
        split at hp
        · cases hrv : read h (2 * ((idx + 1) / 2) + 2) with
          | none => rw [hrv] at hp; exact absurd hp (by simp)
          | some rv =>
            rw [hrv] at hp
            simp only at hp
            split at hp
            · simp only [Option.bind_eq_some] at hp
              obtain ⟨h2, hsw, hrec⟩ := hp
              have hmi : (if (max lv rv).emod 4294967296 = lv.emod 4294967296
                  then 2 * ((idx + 1) / 2) + 1 else 2 * ((idx + 1) / 2) + 2)
                  < h.size := by
                split <;> omega
              have hms := swap_liveMS hplt hmi hsw
              obtain ⟨_, _, _, _, _, hsz2, _, _⟩ := swap_some hsw
              have ih := pdF_liveMS fuel h2 _ h' (by omega) (by omega) hrec
              exact ih.trans hms
            · simp only [Option.bind_eq_some] at hp
              obtain ⟨h2, hsw, hrec⟩ := hp
              have hms := swap_liveMS hplt hlclt hsw
              obtain ⟨_, _, _, _, _, hsz2, _, _⟩ := swap_some hsw
              have ih := pdF_liveMS fuel h2 _ h' (by omega) (by omega) hrec
              exact ih.trans hms
        · simp only [Option.bind_eq_some] at hp
          obtain ⟨h2, hsw, hrec⟩ := hp
          have hcs : (if lv ≠ -1 then 2 * ((idx + 1) / 2) + 1
              else 2 * ((idx + 1) / 2) + 2) < h.size := by
            split <;> omega
          have hms := swap_liveMS hplt hcs hsw
          obtain ⟨_, _, _, _, _, hsz2, _, _⟩ := swap_some hsw
          have ih := pdF_liveMS fuel h2 _ h' (by omega) (by omega) hrec
          exact ih.trans hms
    · injection hp with e; subst e; rfl

/-! ### Claim C8: index arithmetic helpers -/

/-- Claim C8, counterexample: the claim quantifies over every index, but the
child computations are `size_t` arithmetic and wrap: at `i = 2^63` the source
`GetLeftChildNode` returns `1`, not `2 * i + 1`. -/
theorem child_formula_overflow :
    GetLeftChildNode 9223372036854775808 = 1 ∧
      2 * 9223372036854775808 + 1 ≠ 1 := by decide

/-- Claim C8, amended: `GetParentNode i = (i - 1) / 2` for every `size_t`
index `0 < i < 2^64`, and `GetLeftChildNode j = 2j + 1`,
`GetRightChildNode j = 2j + 2` whenever `2j + 2 < 2^64`; beyond that the
`size_t` computations wrap modulo `2^64`. -/
theorem index_helpers (i j : Nat) (hi : 0 < i)
    (hiM : i < 18446744073709551616) (hj : 2 * j + 2 < 18446744073709551616) :
    GetParentNode i = (i - 1) / 2 ∧ GetLeftChildNode j = 2 * j + 1 ∧
      GetRightChildNode j = 2 * j + 2 := by
  unfold GetParentNode GetLeftChildNode GetRightChildNode szMod
  refine ⟨?_, ?_, ?_⟩ <;> omega

/-- Witness for `index_helpers` at `i = j = 5`. -/
theorem index_helpers_witness :
    GetParentNode 5 = 2 ∧ GetLeftChildNode 5 = 11 ∧ GetRightChildNode 5 = 12 :=
  index_helpers 5 5 (by decide) (by decide) (by decide)

/-! ### Claim C6: construction -/

/-- Claim C6, counterexample: the constructor performs no validation at all,
so `MinHeap(0)` does not fail with `InvalidArgument`; it returns a heap
object (with one allocated cell and size 0). -/
theorem construct_zero_succeeds :
    newMinHeap 0 = { cache := [none], size := 0, capacity := 0 } := by decide

/-- Claim C6, amended: construction never fails (the `size_t` parameter
cannot be negative and is not validated); for every capacity `c` with
`c + 1 < 2^64` the constructed heap has `c + 1` allocated cells (hence at
least one) and size 0. -/
theorem construct_allocates (c : Nat) (hc : c < 18446744073709551615) :
    (newMinHeap c).size = 0 ∧ (newMinHeap c).cache.length = c + 1 ∧
      1 ≤ (newMinHeap c).cache.length := by
  unfold newMinHeap
  refine ⟨rfl, ?_, ?_⟩ <;> simp only [List.length_replicate] <;>
    unfold szMod <;> omega

/-- Witness for `construct_allocates` at capacity 4. -/
theorem construct_allocates_witness :
    (newMinHeap 4).size = 0 ∧ (newMinHeap 4).cache.length = 4 + 1 ∧
      1 ≤ (newMinHeap 4).cache.length :=
  construct_allocates 4 (by decide)

/-! ### Claim C1: heap-order invariant -/

/-- Claim C1 (code bug): the heap-order invariant is not preserved by
`Insert`.  Starting from a well-ordered one-element heap holding 3,
inserting 5 leaves the cache `[3, 5]`: the child 5 at index 1 is greater
than its parent 3 at index 0.  The cause is `PercolateUp`'s guard
`parent > 0` (instead of `index > 0`), which forbids any swap with the
root.  (From a genuinely fresh heap no nonempty state is even cleanly
reachable: the very first `Insert` already reads out of bounds, claim C9.) -/
theorem heap_order_violated :
    heapOrderedB { cache := [some 3, none], size := 1, capacity := 9 } = true ∧
    Insert { cache := [some 3, none], size := 1, capacity := 9 } 5 =
      some { cache := [some 3, some 5], size := 2, capacity := 9 } ∧
    heapOrderedB { cache := [some 3, some 5], size := 2, capacity := 9 } =
      false := by decide

/-! ### Claim C2: sorted extraction -/

/-- Claim C2 (code bug): extraction does not yield elements in descending
order.  On the heap `[1, 5]` (the state that inserting 1 then 5 produces,
modulo the first-insert out-of-bounds read of claim C9), the first `Delete`
removes the root 1 and the second removes 5 — ascending, not descending. -/
theorem extraction_not_sorted :
    read { cache := [some 1, some 5, none], size := 2, capacity := 9 } 0 =
      some 1 ∧
    Delete { cache := [some 1, some 5, none], size := 2, capacity := 9 } =
      some { cache := [some 5, some 1, none], size := 1, capacity := 9 } ∧
    read { cache := [some 5, some 1, none], size := 1, capacity := 9 } 0 =
      some 5 ∧
    Delete { cache := [some 5, some 1, none], size := 1, capacity := 9 } =
      some { cache := [some 5, some 1, none], size := 0, capacity := 9 } ∧
    (1 : Int) < 5 := by decide

/-! ### Claim C4: Delete on an empty heap -/

/-- Claim C4 (code bug): `Delete` has no emptiness check.  On a freshly
constructed heap of size 0 it accesses `_cache[_size - 1]` with `_size - 1`
underflowed to `2^64 - 1` — out of bounds, `none` in the embedding — rather
than failing cleanly with `EmptyHeap` and leaving the state unchanged. -/
theorem delete_on_empty_oob : Delete (newMinHeap 4) = none := by decide

/-! ### Claim C5: growth preserves the element multiset -/

/-- Claim C5 (code bug): `CacheResize` frees the old buffer before copying
from it and its copy loop starts at index 1, so the element at index 0 is
lost.  Inserting 3 into a capacity-2 heap holding 5 triggers the resize,
after which 5 is gone from the live prefix (its cell is indeterminate). -/
theorem resize_loses_element :
    Insert { cache := [some 5, none, none], size := 1, capacity := 2 } 3 =
      some { cache := [none, some 3, none, none], size := 2, capacity := 4 } ∧
    some 5 ∈ liveMS { cache := [some 5, none, none], size := 1, capacity := 2 } ∧
    some 5 ∉
      liveMS { cache := [none, some 3, none, none], size := 2, capacity := 4 } := by
  decide

/-! ### Claims C9 and C10: `PercolateUp`'s guard -/

/-- One-step unfolding of `PercolateUpF` at a successor fuel value. -/
theorem puF_succ (h : MinHeap) (i fuel : Nat) :
    PercolateUpF h i (fuel + 1) =
      if 0 < GetParentNode i then
        match read h (GetParentNode i), read h i with
        | some pv, some iv =>
          if pv < iv then
            (swapCells h (GetParentNode i) i).bind
              fun h2 => PercolateUpF h2 (GetParentNode i) fuel
          else some h
        | _, _ => none
      else some h := rfl

/-- `PercolateUp(0)` always fails: the parent index wraps to
`(2^64 - 1) / 2 = 2^63 - 1`, the guard `parent > 0` holds, and the read of
`_cache[parent]` is out of bounds for any real allocation. -/
theorem pu_at_zero_fail {h : MinHeap}
    (hlen : h.cache.length < 9223372036854775807) :
    PercolateUp h 0 = none := by
  unfold PercolateUp
  rw [show (128 : Nat) = 127 + 1 from rfl, puF_succ]
  have hp0 : GetParentNode 0 = 9223372036854775807 := by decide
  rw [hp0]
  rw [if_pos (by norm_num : (0 : Nat) < 9223372036854775807)]
  have hr : read h 9223372036854775807 = none := by
    unfold read
    rw [if_neg (by omega)]
  rw [hr]

/-- Claim C9: on the first `Insert` into an empty heap, `PercolateUp(0)`
computes the parent as `(0 - 1) / 2` in `size_t` arithmetic, i.e.
`2^63 - 1 > 0`, so the guard holds and the read `_cache[parent]` is out of
the bounds of the backing storage: in the total embedding the whole
`Insert` returns `none`. -/
theorem first_insert_oob (h : MinHeap) (x : Int) (hs : h.size = 0)
    (hlen : h.cache.length < 9223372036854775807) :
    0 < GetParentNode 0 ∧ Insert h x = none := by
  refine ⟨by decide, ?_⟩
  obtain ⟨cache, size, capacity⟩ := h
  dsimp only at hs hlen
  subst hs
  unfold Insert
  dsimp only
  have e1 : (0 + 1) % szMod = 1 := by decide
  rw [e1]
  by_cases hcap : (1 : Nat) = capacity
  · subst hcap
    rw [if_pos rfl]
    have e2 : CacheResize ⟨cache, 1, 1⟩ ((1 * 2) % szMod) =
        some ⟨List.replicate 2 none, 1, 2⟩ := rfl
    rw [e2]
    simp only [Option.some_bind]
    have e3 : ((1 : Nat) + (szMod - 1)) % szMod = 0 := by decide
    rw [e3]
    have e4 : write ⟨List.replicate 2 none, 1, 2⟩ 0 (some x) =
        some ⟨[some x, none], 1, 2⟩ := rfl
    rw [e4]
    simp only [Option.some_bind]
    exact pu_at_zero_fail (by norm_num)
  · rw [if_neg hcap]
    rw [Option.some_bind]
    dsimp only
    have e3 : ((1 : Nat) + (szMod - 1)) % szMod = 0 := by decide
    rw [e3]
    by_cases h0 : 0 < cache.length
    · have e4 : write ⟨cache, 1, capacity⟩ 0 (some x) =
          some ⟨cache.set 0 (some x), 1, capacity⟩ := by
        unfold write
        rw [if_pos h0]
      rw [e4, Option.some_bind]
      exact pu_at_zero_fail (by simp only [List.length_set]; omega)
    · have e4 : write ⟨cache, 1, capacity⟩ 0 (some x) = none := by
        unfold write
        rw [if_neg h0]
      rw [e4]
      rfl

/-- Witness for `first_insert_oob`: the first insertion into `MinHeap(4)`. -/
theorem first_insert_oob_witness :
    0 < GetParentNode 0 ∧ Insert (newMinHeap 4) 7 = none :=
  first_insert_oob (newMinHeap 4) 7 (by decide) (by decide)

/-- Claim C10: an `Insert` on a nonempty heap that does not resize never
changes the root cell — `PercolateUp`'s guard `parent > 0` forbids every
swap with index 0, and the new element is written at `size ≥ 1`. -/
theorem insert_preserves_root (h : MinHeap) (x : Int) (h' : MinHeap)
    (hs : 1 ≤ h.size) (hsM : h.size < 18446744073709551615)
    (hcap : (h.size + 1) % szMod ≠ h.capacity)
    (hins : Insert h x = some h') :
    read h' 0 = read h 0 := by
  obtain ⟨cache, size, capacity⟩ := h
  dsimp only at hs hsM hcap ⊢
  unfold Insert at hins
  dsimp only at hins
  rw [if_neg hcap] at hins
  rw [Option.some_bind] at hins
  dsimp only at hins
  have e1 : (size + 1) % szMod = size + 1 := by
    unfold szMod
    omega
  rw [e1] at hins
  have e2 : ((size + 1) + (szMod - 1)) % szMod = size := by
    unfold szMod
    omega
  rw [e2] at hins
  simp only [Option.bind_eq_some] at hins
  obtain ⟨h3, hw, hpu⟩ := hins
  obtain ⟨hlt, he⟩ := write_some hw
  subst he
  unfold PercolateUp at hpu
  have hrt := puF_root 128 _ size h' hs hpu
  rw [hrt]
  unfold read
  dsimp only
  simp only [List.length_set]
  by_cases h0 : 0 < cache.length
  · rw [if_pos h0, if_pos h0]
    rw [List.get?_set_ne _ _ (by omega : size ≠ 0)]
  · rw [if_neg h0, if_neg h0]

/-- Witness for `insert_preserves_root`: inserting 3 into a one-element
heap holding 5 leaves the root cell holding 5. -/
theorem insert_preserves_root_witness :
    read { cache := [some 5, some 3, none], size := 2, capacity := 9 } 0 =
      read { cache := [some 5, none, none], size := 1, capacity := 9 } 0 :=
  insert_preserves_root { cache := [some 5, none, none], size := 1, capacity := 9 }
    3 { cache := [some 5, some 3, none], size := 2, capacity := 9 }
    (by decide) (by decide) (by decide) (by decide)

/-! ### Claim C7: size accounting -/

theorem cacheResize_size {h h2 : MinHeap} {nc : Nat}
    (hcr : CacheResize h nc = some h2) :
    h2.size = h.size ∧ h2.capacity = nc := by
  unfold CacheResize at hcr
  simp only [Option.map_eq_some'] at hcr
  obtain ⟨cl, _, he⟩ := hcr
  subst he
  exact ⟨rfl, rfl⟩

theorem insert_size_succ {h h' : MinHeap} {x : Int}
    (hsM : h.size < 18446744073709551615) (hins : Insert h x = some h') :
    h'.size = h.size + 1 := by
  obtain ⟨cache, size, capacity⟩ := h
  dsimp only at hsM ⊢
  unfold Insert at hins
  dsimp only at hins
  have e1 : (size + 1) % szMod = size + 1 := by
    unfold szMod
    omega
  rw [e1] at hins
  split at hins
  · simp only [Option.bind_eq_some] at hins
    obtain ⟨h2, hcr, h3, hw, hpu⟩ := hins
    obtain ⟨e2, _⟩ := cacheResize_size hcr
    obtain ⟨_, he⟩ := write_some hw
    subst he
    unfold PercolateUp at hpu
    obtain ⟨es, _, _⟩ := puF_meta _ _ _ _ hpu
    rw [es]
    simpa using e2
  · rw [Option.some_bind] at hins
    dsimp only at hins
    rw [Option.bind_eq_some] at hins
    obtain ⟨h3, hw, hpu⟩ := hins
    obtain ⟨_, he⟩ := write_some hw
    subst he
    unfold PercolateUp at hpu
    obtain ⟨es, _, _⟩ := puF_meta _ _ _ _ hpu
    simpa using es

theorem delete_size_pred {h h' : MinHeap}
    (hs : 1 ≤ h.size) (hsM : h.size < 18446744073709551616)
    (hdel : Delete h = some h') :
    h'.size = h.size - 1 := by
  unfold Delete at hdel
  simp only [Option.bind_eq_some] at hdel
  obtain ⟨h2, hsw, hpd⟩ := hdel
  obtain ⟨_, _, _, _, _, hsz2, _, _⟩ := swap_some hsw
  unfold PercolateDown at hpd
  obtain ⟨es, _, _⟩ := pdF_meta _ _ _ _ hpd
  rw [es]
  dsimp only
  rw [hsz2]
  unfold szMod
  omega

theorem print_eq_take (h : MinHeap) (hle : h.size ≤ h.cache.length) :
    Print h = h.cache.take h.size := by
  apply List.ext
  intro n
  by_cases hn : n < h.size
  · have hnl : n < h.cache.length := lt_of_lt_of_le hn hle
    have hc : h.cache.get? n = some (h.cache.get ⟨n, hnl⟩) :=
      List.get?_eq_get hnl
    unfold Print
    rw [List.get?_map, List.get?_range hn, List.get?_take hn, hc]
    simp only [Option.map_some']
    unfold read
    rw [if_pos hnl, hc]
    rfl
  · have h1 : (Print h).get? n = none := by
      apply List.get?_eq_none.mpr
      simp only [Print, List.length_map, List.length_range]
      omega
    have h2 : (h.cache.take h.size).get? n = none := by
      apply List.get?_eq_none.mpr
      simp only [List.length_take]
      omega
    rw [h1, h2]

/-- Claim C7: size is 0 after construction; a successful `Insert` increases
size by exactly 1; a successful `Delete` on a nonempty heap decreases it by
exactly 1; and `Print` emits exactly `size` cells — the valid prefix of the
array in array order. -/
theorem size_accounting (c : Nat) (h1 h2 h3 h1' h2' : MinHeap) (x : Int)
    (hins : Insert h1 x = some h1') (hs1 : h1.size < 18446744073709551615)
    (hdel : Delete h2 = some h2') (hs2 : 1 ≤ h2.size)
    (hs2M : h2.size < 18446744073709551616)
    (hpr : h3.size ≤ h3.cache.length) :
    (newMinHeap c).size = 0 ∧ h1'.size = h1.size + 1 ∧
      h2'.size = h2.size - 1 ∧ Print h3 = h3.cache.take h3.size ∧
      (Print h3).length = h3.size :=
  ⟨rfl, insert_size_succ hs1 hins, delete_size_pred hs2 hs2M hdel,
    print_eq_take h3 hpr, by simp [Print]⟩

/-- Witness for `size_accounting` on concrete heaps. -/
theorem size_accounting_witness :
    (newMinHeap 4).size = 0 ∧
      ({ cache := [some 5, some 3, none], size := 2, capacity := 9 } :
        MinHeap).size =
        ({ cache := [some 5, none, none], size := 1, capacity := 9 } :
          MinHeap).size + 1 ∧
      ({ cache := [some 1, some 4, none], size := 1, capacity := 9 } :
        MinHeap).size =
        ({ cache := [some 4, some 1, none], size := 2, capacity := 9 } :
          MinHeap).size - 1 ∧
      Print { cache := [some 7], size := 1, capacity := 1 } =
        ([some 7] : List (Option Int)).take 1 ∧
      (Print { cache := [some 7], size := 1, capacity := 1 }).length = 1 :=
  size_accounting 4 { cache := [some 5, none, none], size := 1, capacity := 9 }
    { cache := [some 4, some 1, none], size := 2, capacity := 9 }
    { cache := [some 7], size := 1, capacity := 1 }
    { cache := [some 5, some 3, none], size := 2, capacity := 9 }
    { cache := [some 1, some 4, none], size := 1, capacity := 9 }
    3 (by decide) (by decide) (by decide) (by decide) (by decide) (by decide)

/-! ### Claim C3: what `Delete` removes -/

/-- Claim C3, counterexample: `Delete` removes whatever sits at the root,
which need not be the maximum, because the heap-order invariant is not
maintained (claim C1).  On the heap `[1, 5]` it removes 1 while the
maximum 5 stays. -/
theorem delete_root_not_max :
    read { cache := [some 1, some 5, none], size := 2, capacity := 7 } 0 =
      some 1 ∧
    some 5 ∈ liveMS { cache := [some 1, some 5, none], size := 2, capacity := 7 } ∧
    (1 : Int) < 5 ∧
    Delete { cache := [some 1, some 5, none], size := 2, capacity := 7 } =
      some { cache := [some 5, some 1, none], size := 1, capacity := 7 } ∧
    liveMS { cache := [some 5, some 1, none], size := 1, capacity := 7 } =
      {some 5} := by decide

theorem ms_shuffle {α : Type} (a b : α) (T : Multiset α) :
    (a ::ₘ T) + {b} = b ::ₘ (T + {a}) := by
  rw [← Multiset.singleton_add, ← Multiset.singleton_add]
  abel

/-- Claim C3, amended: for a heap of size ≥ 1 (with the live prefix inside
the allocation and size below `2^63`), `Delete` removes one copy of the
root element from the live prefix — not necessarily the maximum — and the
size decreases by exactly 1.  No value is returned to the caller: the
source's `Delete` has return type `void`. -/
theorem delete_removes_root (h h' : MinHeap) (r : Int)
    (hs : 1 ≤ h.size) (hsB : h.size < 9223372036854775808)
    (hlen : h.size ≤ h.cache.length)
    (hroot : read h 0 = some r) (hdel : Delete h = some h') :
    h'.size = h.size - 1 ∧ liveMS h' + {some r} = liveMS h := by
  obtain ⟨A, s, cap⟩ := h
  dsimp only at hs hsB hlen hroot ⊢
  unfold Delete at hdel
  dsimp only at hdel
  have elast : (s + (szMod - 1)) % szMod = s - 1 := by
    unfold szMod
    omega
  rw [elast] at hdel
  simp only [Option.bind_eq_some] at hdel
  obtain ⟨h2, hsw, hpd⟩ := hdel
  obtain ⟨v0, v1, hr0, hr1, hc2, hsz2, hcap2, hlen2⟩ := swap_some hsw
  have hv0 : r = v0 := by
    rw [hroot] at hr0
    exact Option.some_inj.mp hr0
  subst hv0
  have e3 : (h2.size + (szMod - 1)) % szMod = s - 1 := by
    rw [hsz2]
    dsimp only
    unfold szMod
    omega
  rw [e3] at hpd
  unfold PercolateDown at hpd
  obtain ⟨es, _, _⟩ := pdF_meta _ _ _ _ hpd
  have hms := pdF_liveMS _ _ _ _ (by norm_num) (by dsimp only; omega) hpd
  refine ⟨by rw [es], ?_⟩
  rw [hms]
  obtain ⟨hl0, hg0⟩ := read_some hr0
  obtain ⟨hl1, hg1⟩ := read_some hr1
  dsimp only at hl0 hg0 hl1 hg1 hc2 ⊢
  unfold liveMS liveList
  dsimp only
  rw [hc2]
  rw [List.set_take, List.set_take]
  have hset : ((A.take (s - 1)).set 0 (some v1)).set (s - 1) (some r) =
      (A.take (s - 1)).set 0 (some v1) :=
    List.set_eq_of_length_le (by
      simp only [List.length_set, List.length_take]
      omega)
  rw [hset]
  cases A with
  | nil => simp at hl0
  | cons a0 t =>
    have ha0 : a0 = some r := by simpa using hg0
    subst ha0
    rcases Nat.lt_or_ge s 2 with hs1 | hs2
    · have hs1' : s = 1 := by omega
      subst hs1'
      simp
    · obtain ⟨k, rfl⟩ : ∃ k, s = k + 2 := ⟨s - 2, by omega⟩
      have hgt : t.get? k = some (some v1) := by
        simpa using hg1
      have htk : t.take (k + 1) = t.take k ++ [some v1] := by
        rw [List.take_succ, ← List.get?_eq_getElem?, hgt]
        rfl
      have e4 : k + 2 - 1 = k + 1 := by omega
      rw [e4, List.take_succ_cons, List.take_succ_cons, List.set_cons_zero,
        htk]
      rw [← Multiset.cons_coe, ← Multiset.cons_coe, ← Multiset.coe_add,
        Multiset.coe_singleton]
      exact ms_shuffle (some v1) (some r) _

/-- Witness for `delete_removes_root` on a concrete two-element heap. -/
theorem delete_removes_root_witness :
    ({ cache := [some 2, some 4, none], size := 1, capacity := 7 } :
        MinHeap).size =
      ({ cache := [some 4, some 2, none], size := 2, capacity := 7 } :
        MinHeap).size - 1 ∧
    liveMS { cache := [some 2, some 4, none], size := 1, capacity := 7 } +
        {some 4} =
      liveMS { cache := [some 4, some 2, none], size := 2, capacity := 7 } :=
  delete_removes_root
    { cache := [some 4, some 2, none], size := 2, capacity := 7 }
    { cache := [some 2, some 4, none], size := 1, capacity := 7 } 4
    (by decide) (by decide) (by decide) (by decide) (by decide)

end MH
